import Mathlib

/-!
Verification development for `version_restrictor.py`, a tool that fetches the
active (non-end-of-life) versions of a product from a JSON catalog endpoint and
rewrites the allow-list and error message of a Terraform `variables.tf` file.

The embedding works on the parsed JSON value (the HTTP layer and JSON parsing
are outside the model: a network failure or malformed body raises an exception
that the program re-raises, and the orchestrator then exits non-zero) and on
the file content as a string (file-system I/O is outside the model: returning
`none` models `sys.exit(1)` before the single write; returning `some out`
models writing `out` back to the file).
-/

namespace VersionRestrictor

/-- JSON values as produced by Python's `json.loads`: objects are association
lists with unique keys (duplicate keys are resolved by the parser before the
program sees the value). -/
inductive JValue where
  | null : JValue
  | bool (b : Bool) : JValue
  | num (n : Int) : JValue
  | str (s : String) : JValue
  | arr (elems : List JValue) : JValue
  | obj (fields : List (String × JValue)) : JValue

/-- Python dict lookup on the association list of an object. -/
def lookup : List (String × JValue) → String → Option JValue
  | [], _ => none
  | (k1, v) :: fs, k => if k1 = k then some v else lookup fs k

/-- Python exceptions that the fetch code can raise and not catch
(`except` clauses in `get_active_eks_versions` only cover `URLError` and
`JSONDecodeError`, so these propagate to `main`). -/
inductive PyExc where
  | keyError (k : String) : PyExc
  | typeError : PyExc
  | attributeError : PyExc
deriving DecidableEq, Repr

/-- Python equality of a JSON value with a given string: only the same string
compares equal (no other JSON value equals a `str`). -/
def eqStrLit (k : String) : JValue → Bool
  | .str s => s == k
  | _ => false

/-- Python identity test `x is False` applied to the result of `.get`:
true exactly when the field is present and is the boolean `False`. -/
def isFalseLit : Option JValue → Bool
  | some (.bool false) => true
  | _ => false

/-- Sublist (contiguous) membership test used to model Python's substring
operator `in` on strings. -/
def listInfix (pat : List Char) : List Char → Bool
  | [] => pat.isEmpty
  | c :: cs => pat.isPrefixOf (c :: cs) || listInfix pat cs

/-- Python's `k in v` for a string `k` (line 57 evaluates
`"releases" in data["result"]`): key membership for dicts, element membership
for lists, substring test for strings, `TypeError` otherwise. -/
def pyIn (k : String) : JValue → Except PyExc Bool
  | .obj fs => .ok (fs.any (fun p => p.1 == k))
  | .arr xs => .ok (xs.any (eqStrLit k))
  | .str s => .ok (listInfix k.data s.data)
  | _ => .error .typeError

/-- Python's `v[k]` for a string key `k` (line 58 evaluates
`data["result"]["releases"]`): dict lookup raising `KeyError` when absent,
`TypeError` for every non-dict value. -/
def pySubscript : JValue → String → Except PyExc JValue
  | .obj fs, k =>
    match lookup fs k with
    | some v => .ok v
    | none => .error (.keyError k)
  | _, _ => .error .typeError

/-- Python iteration `for release in releases` (line 66): a list yields its
elements, a dict its keys, a string its characters, anything else raises
`TypeError`. -/
def pyIterate : JValue → Except PyExc (List JValue)
  | .arr xs => .ok xs
  | .obj fs => .ok (fs.map (fun p => .str p.1))
  | .str s => .ok (s.data.map (fun c => .str (String.mk [c])))
  | _ => .error .typeError

/-- Loop body of lines 66-69: for each release, test
`release.get("isEol") is False` (identity with the boolean `False`, so absent
keys, JSON `null`, `0` and everything else excludes the record) and append
`release["name"]` (raising `KeyError` when `name` is absent). `.get` on a
non-dict raises `AttributeError`. -/
def filterActive : List JValue → Except PyExc (List JValue)
  | [] => .ok []
  | r :: rs =>
    match r with
    | .obj fs =>
      if isFalseLit (lookup fs "isEol") then
        match lookup fs "name" with
        | some nm =>
          match filterActive rs with
          | .ok t => .ok (nm :: t)
          | .error e => .error e
        | none => .error (.keyError "name")
      else filterActive rs
    | _ => .error .attributeError

/-- Result of running `get_active_eks_versions` on a parsed JSON body:
a returned list of `name` values, a `sys.exit(1)` (line 63), or an uncaught
exception that propagates to `main`. -/
inductive FetchResult where
  | ok (versions : List JValue) : FetchResult
  | sysExit : FetchResult
  | exc (e : PyExc) : FetchResult

/-- Iterate the selected `releases` value and filter it (lines 65-75). -/
def runReleases (rel : JValue) : FetchResult :=
  match pyIterate rel with
  | .error e => .exc e
  | .ok rs =>
    match filterActive rs with
    | .ok vs => .ok vs
    | .error e => .exc e

/-- Lines 56-75 of `get_active_eks_versions`, from the parsed JSON value on:
`isinstance(data, dict) and "result" in data and "releases" in data["result"]`
selects `data["result"]["releases"]`; `isinstance(data, list)` selects `data`
itself; any other shape logs and calls `sys.exit(1)`. -/
def get_active_eks_versions (data : JValue) : FetchResult :=
  match data with
  | .obj fs =>
    match lookup fs "result" with
    | some r =>
      match pyIn "releases" r with
      | .error e => .exc e
      | .ok true =>
        match pySubscript r "releases" with
        | .error e => .exc e
        | .ok rel => runReleases rel
      | .ok false => .sysExit
    | none => .sysExit
  | .arr xs => runReleases (.arr xs)
  | _ => .sysExit

/-- Well-formed release record: a JSON object carrying a `name` field. -/
def isRecordWF (r : JValue) : Bool :=
  match r with
  | .obj fs => (lookup fs "name").isSome
  | _ => false

/-- Name of a record (meaningful for well-formed records). -/
def recName (r : JValue) : JValue :=
  match r with
  | .obj fs => (lookup fs "name").getD .null
  | _ => .null

/-- A record is active exactly when its `isEol` field is present and is the
boolean `false`. -/
def recActive (r : JValue) : Bool :=
  match r with
  | .obj fs => isFalseLit (lookup fs "isEol")
  | _ => false

/-- Record list is an object. -/
def isObjRec (r : JValue) : Bool :=
  match r with
  | .obj _ => true
  | _ => false

/-- A record that triggers the `KeyError` of line 69: `isEol` is exactly the
boolean `false` but there is no `name` field. -/
def badRecord (r : JValue) : Bool :=
  match r with
  | .obj fs => isFalseLit (lookup fs "isEol") && (lookup fs "name").isNone
  | _ => false

/-- Recognized response shape with release list `rs`: either the flat array
`rs` itself, or an object whose `result` field is an object whose `releases`
field is the array `rs`. -/
def shapeWith (rs : List JValue) (data : JValue) : Prop :=
  data = .arr rs ∨
    ∃ fs gs, data = .obj fs ∧ lookup fs "result" = some (.obj gs) ∧
      lookup gs "releases" = some (.arr rs)

/-- Recognized top-level shape, as a boolean: a list, or an object containing
`result.releases`. -/
def recognizedShape (data : JValue) : Bool :=
  match data with
  | .arr _ => true
  | .obj fs =>
    match lookup fs "result" with
    | some (.obj gs) => (lookup gs "releases").isSome
    | _ => false
  | _ => false

/-- Whitespace as matched by Python's `\s` in a Unicode string pattern (and
stripped by `int()`): the ASCII whitespace characters together with the
Unicode whitespace code points. -/
def pySpace (c : Char) : Bool :=
  [(9 : UInt32), 10, 11, 12, 13, 28, 29, 30, 31, 32, 133, 160, 5760,
    8232, 8233, 8239, 8287, 12288].contains c.val
  || (8192 ≤ c.val && c.val ≤ 8202)

/-- Digit tail of a Python integer literal: decimal digits with single
underscores allowed between digits (`int("1_0")` is `10`, `int("1__0")` and
`int("1_")` raise `ValueError`). -/
def digitsCore : Nat → List Char → Option Nat
  | acc, [] => some acc
  | acc, '_' :: cs =>
    match cs with
    | c :: cs2 =>
      if c.isDigit then digitsCore (acc * 10 + (c.toNat - 48)) cs2 else none
    | [] => none
  | acc, c :: cs =>
    if c.isDigit then digitsCore (acc * 10 + (c.toNat - 48)) cs else none

/-- Nonempty digit sequence with underscores, as accepted after the optional
sign of `int()`. -/
def pyIntDigits : List Char → Option Nat
  | [] => none
  | c :: cs => if c.isDigit then digitsCore (c.toNat - 48) cs else none

/-- Python's `int()` on a string (restricted to ASCII decimal digits, which is
the alphabet version identifiers use): surrounding whitespace is stripped, an
optional sign is accepted, and `none` models the `ValueError` raised on any
other input. -/
def pyInt? (s : String) : Option Int :=
  let t := ((s.data.dropWhile pySpace).reverse.dropWhile pySpace).reverse
  match t with
  | '+' :: ds => (pyIntDigits ds).map (fun n => (n : Int))
  | '-' :: ds => (pyIntDigits ds).map (fun n => -(n : Int))
  | ds => (pyIntDigits ds).map (fun n => (n : Int))

/-- Python's `s.split(".")`: split on every occurrence of the dot, keeping
empty components (`"".split(".")` is `[""]`). -/
def splitDotAux : List Char → List Char → List String
  | [], acc => [String.mk acc.reverse]
  | c :: cs, acc =>
    if c = '.' then String.mk acc.reverse :: splitDotAux cs []
    else splitDotAux cs (c :: acc)

/-- Python's `s.split(".")` on a string. -/
def pySplitDot (s : String) : List String := splitDotAux s.data []

/-- Sort key of line 100: `[int(u) for u in s.split(".")]`; `none` models the
`ValueError` that any unparsable component raises. -/
def versionKey (s : String) : Option (List Int) :=
  (pySplitDot s).mapM pyInt?

/-- Python's `<=` on lists of integers: lexicographic, with a shorter list
below any extension of it. -/
def intListLe : List Int → List Int → Bool
  | [], _ => true
  | _ :: _, [] => false
  | a :: as, b :: bs => if a < b then true else if b < a then false else intListLe as bs

/-- Key order used by `sorted(versions, key=...)` on line 100. Keys are
defaulted to `[]`, which is never reached in the numeric branch where every
key parses. -/
def numLe (a b : String) : Prop :=
  intListLe ((versionKey a).getD []) ((versionKey b).getD []) = true

/-- Plain string order of the lexical fallback `sorted(versions)` (line 103):
Python compares strings lexicographically by code point, as does `≤` on
`String`. -/
def lexLe (a b : String) : Prop := a ≤ b

instance : DecidableRel numLe := fun a b => by
  unfold numLe; infer_instance

instance : DecidableRel lexLe := fun a b => by
  unfold lexLe; infer_instance

/-- Every component of every version parses as an integer, so the numeric
sort of line 100 raises no `ValueError`. -/
def allNumericB (vs : List String) : Bool :=
  vs.all (fun v => (versionKey v).isSome)

/-- Lines 99-103: numeric sort by the integer-sequence key, falling back to
plain lexical sort when some component raises `ValueError` (the warning log is
outside the model). Python's `sorted` is a stable sort and is modelled by the
stable `List.insertionSort`. -/
def sorted_versions (versions : List String) : List String :=
  if allNumericB versions then List.insertionSort numLe versions
  else List.insertionSort lexLe versions

/-- Python's `sep.join(l)`. -/
def joinSep (sep : String) : List String → String
  | [] => ""
  | [x] => x
  | x :: y :: ys => x ++ sep ++ joinSep sep (y :: ys)

/-- Line 106: `", ".join([f'"{v}"' for v in sorted_versions])`. -/
def new_list_str (sv : List String) : String :=
  joinSep ", " (sv.map (fun v => "\"" ++ v ++ "\""))

/-- Lines 129-131: the replacement value for the error message. -/
def new_error_msg_val (sv : List String) : String :=
  "\"The cluster_version must be one of: " ++ joinSep ", " sv ++ ".\""

/-- Literal part of the regex `contains\(\[(.*?)\]` of line 110. -/
def cPat : List Char := "contains([".data

/-- Literal part of the regex `(error_message\s*=\s*)(.*)` of line 125. -/
def ePat : List Char := "error_message".data

/-- Lazy `(.*?)\]` with `.` not matching a newline: scan for the first `]`;
succeed with the span before it, fail if a newline (or the end of the text)
comes first. -/
def scanInner : List Char → Option (List Char × List Char)
  | [] => none
  | c :: cs =>
    if c = ']' then some ([], cs)
    else if c = '\n' then none
    else
      match scanInner cs with
      | some (i, r) => some (c :: i, r)
      | none => none

/-- Match of `contains\(\[(.*?)\]` at the head of the text: the literal, then
the lazy group up to the first `]` with no intervening newline. Returns
(group 1, rest after the closing bracket). -/
def headContains (s : List Char) : Option (List Char × List Char) :=
  if cPat.isPrefixOf s then scanInner (s.drop 10) else none

/-- Leftmost match of `contains\(\[(.*?)\]` (line 111): returns the text
before the match, the group-1 span, and the text after the closing bracket. -/
def findContainsMatch : List Char → Option (List Char × List Char × List Char)
  | [] => none
  | c :: cs =>
    match headContains (c :: cs) with
    | some (i, r) => some ([], i, r)
    | none =>
      match findContainsMatch cs with
      | some (p, i, r) => some (c :: p, i, r)
      | none => none

/-- Match of `(error_message\s*=\s*)(.*)` at the head of the text: the literal
`error_message`, a maximal whitespace run, `=`, a maximal whitespace run
(group 1), then group 2 runs to the next newline or the end. Returns
(group 1, group 2, rest). -/
def matchErrorHere (s : List Char) : Option (List Char × List Char × List Char) :=
  if ePat.isPrefixOf s then
    let t := s.drop 13
    let ws1 := t.takeWhile pySpace
    match t.dropWhile pySpace with
    | '=' :: t2 =>
      let ws2 := t2.takeWhile pySpace
      let tail := t2.dropWhile pySpace
      some (ePat ++ ws1 ++ '=' :: ws2,
            tail.takeWhile (fun c => c != '\n'),
            tail.dropWhile (fun c => c != '\n'))
    | _ => none
  else none

/-- Leftmost match of the error-message regex (line 126): returns the text
before the match, group 1, group 2 and the rest. -/
def findErrorMatch : List Char → Option (List Char × List Char × List Char × List Char)
  | [] => none
  | c :: cs =>
    match matchErrorHere (c :: cs) with
    | some (g, v, r) => some ([], g, v, r)
    | none =>
      match findErrorMatch cs with
      | some (p, g, v, r) => some (c :: p, g, v, r)
      | none => none

/-- Lines 110-120: locate the allow-list and splice the rendered version list
into the group-1 span (`none` models the `sys.exit(1)` of line 115). -/
def allowListStep (content : String) (sv : List String) : Option (List Char) :=
  match findContainsMatch content.data with
  | none => none
  | some (p, _, r) => some (p ++ cPat ++ (new_list_str sv).data ++ ']' :: r)

/-- Lines 125-137: on the once-mutated text, locate the error message and
splice the new value into the group-2 span; a missing match is non-fatal and
leaves the text unchanged (the warning log is outside the model). -/
def errorStep (nc : List Char) (sv : List String) : List Char :=
  match findErrorMatch nc with
  | none => nc
  | some (p, g, _, r) => p ++ g ++ (new_error_msg_val sv).data ++ r

/-- In-memory transformation of `update_terraform_file` (lines 94-141) on the
file content: `none` models `sys.exit(1)` with no write (line 115); `some out`
models writing `out` back (lines 140-141). -/
def update_terraform_file (content : String) (versions : List String) : Option String :=
  let sv := sorted_versions versions
  match allowListStep content sv with
  | none => none
  | some nc => some (String.mk (errorStep nc sv))

/-- All fetched names are strings; the updater calls `.split` on each, so a
non-string name raises `AttributeError`, which the broad `except Exception`
of line 148 turns into `sys.exit(1)`. -/
def asStrings : List JValue → Option (List String)
  | [] => some []
  | .str s :: rs => (asStrings rs).map (fun t => s :: t)
  | _ => none

/-- Process outcome of `main` (lines 153-171): exit 1 before the updater runs
(fetch exception or `sys.exit` inside the fetch), exit 1 on an empty version
list, exit 1 inside the updater with no write, or normal termination after
writing the new content. -/
inductive RunResult where
  | fetchExit : RunResult
  | emptyExit : RunResult
  | updateExit : RunResult
  | written (out : String) : RunResult

/-- Orchestration of `main` on a parsed response body and the target file
content: `sys.exit(1)` raises `SystemExit`, which `except Exception` does not
catch, so exits inside the helpers propagate. -/
def mainRun (data : JValue) (content : String) : RunResult :=
  match get_active_eks_versions data with
  | .sysExit => .fetchExit
  | .exc _ => .fetchExit
  | .ok [] => .emptyExit
  | .ok (v :: vs) =>
    match asStrings (v :: vs) with
    | none => .updateExit
    | some ss =>
      match update_terraform_file content ss with
      | none => .updateExit
      | some out => .written out

/-- Match test for the allow-list regex at the head of the text. -/
def matchAtB (s : List Char) : Bool :=
  (headContains s).isSome

/-- Match test for the error-message regex at the head of the text. -/
def errMatchAtB (s : List Char) : Bool :=
  (matchErrorHere s).isSome

/-- Modelled from the spec: the claim's reading of the allow-list pattern,
`contains([` followed (anywhere later, newlines included) by a `]`. -/
def hasClaimContainsPattern : List Char → Bool
  | [] => false
  | c :: cs =>
    (cPat.isPrefixOf (c :: cs) && ((c :: cs).drop 10).contains ']')
    || hasClaimContainsPattern cs

/-- Identifier characters of the configuration language (used to state the
claim's notion of an assignment to the exact identifier `error_message`). -/
def isIdentChar (c : Char) : Bool := c.isAlphanum || c == '_'

/-- Modelled from the spec: an assignment to the exact identifier
`error_message` occurs, i.e. the error-message pattern matches at a position
not preceded by an identifier character. The flag records whether the
previous character is an identifier character. -/
def exactErrorAssignFrom (prevIsIdent : Bool) : List Char → Bool
  | [] => false
  | c :: cs =>
    (!prevIsIdent && errMatchAtB (c :: cs)) || exactErrorAssignFrom (isIdentChar c) cs

/-- Modelled from the spec: the claim's predicate "the document contains an
assignment to the exact, case-sensitive identifier `error_message`". -/
def hasExactErrorAssign (s : List Char) : Bool := exactErrorAssignFrom false s

/-- Modelled from the spec: leftmost error-message match restricted to
positions not preceded by an identifier character, as the claim's
"first occurrence of an assignment to the exact identifier" requires. -/
def findErrorExactFrom (prevIsIdent : Bool) :
    List Char → Option (List Char × List Char × List Char × List Char)
  | [] => none
  | c :: cs =>
    match (if prevIsIdent then none else matchErrorHere (c :: cs)) with
    | some (g, v, r) => some ([], g, v, r)
    | none =>
      match findErrorExactFrom (isIdentChar c) cs with
      | some (p, g, v, r) => some (c :: p, g, v, r)
      | none => none

/-- Modelled from the spec: the updater as the claim describes it, with the
error-message replacement applied to the first assignment to the exact
identifier `error_message` (everything else as in the code). -/
def claim_update_exact (content : String) (versions : List String) : Option String :=
  let sv := sorted_versions versions
  match allowListStep content sv with
  | none => none
  | some nc =>
    match findErrorExactFrom false nc with
    | none => some (String.mk nc)
    | some (p, g, _, r) =>
      some (String.mk (p ++ g ++ (new_error_msg_val sv).data ++ r))

/-- Order actually used by the sort step for a given input list: the numeric
key order when every component parses, the plain string order otherwise. -/
def sortRel (vs : List String) : String → String → Prop :=
  if allNumericB vs then numLe else lexLe

lemma intListLe_cons (a b : Int) (as bs : List Int) :
    intListLe (a :: as) (b :: bs) = true ↔ a < b ∨ (a = b ∧ intListLe as bs = true) := by
  by_cases h1 : a < b
  · simp [intListLe, h1]
  · by_cases h2 : b < a
    · simp [intListLe, h1, h2, ne_of_gt h2]
    · have hab : a = b := le_antisymm (not_lt.mp h2) (not_lt.mp h1)
      simp [intListLe, h1, h2, hab]

lemma intListLe_total : ∀ x y : List Int, intListLe x y = true ∨ intListLe y x = true := by
  intro x
  induction x with
  | nil => intro y; left; rfl
  | cons a as ih =>
    intro y
    cases y with
    | nil => right; rfl
    | cons b bs =>
      rcases lt_trichotomy a b with h | h | h
      · left; exact (intListLe_cons _ _ _ _).mpr (Or.inl h)
      · rcases ih bs with h2 | h2
        · left; exact (intListLe_cons _ _ _ _).mpr (Or.inr ⟨h, h2⟩)
        · right; exact (intListLe_cons _ _ _ _).mpr (Or.inr ⟨h.symm, h2⟩)
      · right; exact (intListLe_cons _ _ _ _).mpr (Or.inl h)

lemma intListLe_trans :
    ∀ x y z : List Int, intListLe x y = true → intListLe y z = true → intListLe x z = true := by
  intro x
  induction x with
  | nil => intro y z _ _; rfl
  | cons a as ih =>
    intro y z hxy hyz
    cases y with
    | nil => simp [intListLe] at hxy
    | cons b bs =>
      cases z with
      | nil => simp [intListLe] at hyz
      | cons c cs =>
        rcases (intListLe_cons _ _ _ _).mp hxy with hab | ⟨hab, hrec1⟩ <;>
          rcases (intListLe_cons _ _ _ _).mp hyz with hbc | ⟨hbc, hrec2⟩
        · exact (intListLe_cons _ _ _ _).mpr (Or.inl (lt_trans hab hbc))
        · exact (intListLe_cons _ _ _ _).mpr (Or.inl (hbc ▸ hab))
        · exact (intListLe_cons _ _ _ _).mpr (Or.inl (hab ▸ hbc))
        · exact (intListLe_cons _ _ _ _).mpr (Or.inr ⟨hab.trans hbc, ih _ _ hrec1 hrec2⟩)

instance : IsTotal String numLe :=
  ⟨fun _ _ => intListLe_total _ _⟩

instance : IsTrans String numLe :=
  ⟨fun _ _ _ => intListLe_trans _ _ _⟩

instance : IsTotal String lexLe :=
  ⟨fun a b => le_total a b⟩

instance : IsTrans String lexLe :=
  ⟨fun _ _ _ hab hbc => le_trans hab hbc⟩

lemma lookup_isSome_any (fs : List (String × JValue)) (k : String) :
    (lookup fs k).isSome = fs.any (fun p => p.1 == k) := by
  induction fs with
  | nil => rfl
  | cons p fs ih =>
    obtain ⟨k1, v⟩ := p
    by_cases h : k1 = k <;> simp [lookup, h, ih]

lemma filterActive_wf (rs : List JValue) (h : ∀ r ∈ rs, isRecordWF r = true) :
    filterActive rs = .ok ((rs.filter recActive).map recName) := by
  induction rs with
  | nil => rfl
  | cons r rs ih =>
    have hr := h r (List.mem_cons_self r rs)
    have hrs := ih (fun x hx => h x (List.mem_cons_of_mem r hx))
    match r, hr with
    | .obj fs, hr =>
      simp only [isRecordWF] at hr
      cases he : isFalseLit (lookup fs "isEol") with
      | true =>
        obtain ⟨nm, hnm⟩ := Option.isSome_iff_exists.mp hr
        simp [filterActive, he, hnm, hrs, List.filter, recActive, recName]
      | false =>
        simp [filterActive, he, hrs, List.filter, recActive]

lemma filterActive_keyError (rs : List JValue)
    (hobj : ∀ r ∈ rs, isObjRec r = true)
    (hbad : ∃ r ∈ rs, badRecord r = true) :
    filterActive rs = .error (.keyError "name") := by
  induction rs with
  | nil => simp at hbad
  | cons r rs ih =>
    have hr := hobj r (List.mem_cons_self r rs)
    have hrs := fun x hx => hobj x (List.mem_cons_of_mem r hx)
    match r, hr with
    | .obj fs, _ =>
      cases he : isFalseLit (lookup fs "isEol") with
      | true =>
        cases hn : lookup fs "name" with
        | none => simp [filterActive, he, hn]
        | some nm =>
          have hbad2 : ∃ x ∈ rs, badRecord x = true := by
            rcases hbad with ⟨x, hx, hxbad⟩
            rcases List.mem_cons.mp hx with rfl | hx2
            · simp [badRecord, hn] at hxbad
            · exact ⟨x, hx2, hxbad⟩
          simp [filterActive, he, hn, ih hrs hbad2]
      | false =>
        have hbad2 : ∃ x ∈ rs, badRecord x = true := by
          rcases hbad with ⟨x, hx, hxbad⟩
          rcases List.mem_cons.mp hx with rfl | hx2
          · simp [badRecord, he] at hxbad
          · exact ⟨x, hx2, hxbad⟩
        simp [filterActive, he, ih hrs hbad2]

lemma asStrings_map (ss : List String) : asStrings (ss.map .str) = some ss := by
  induction ss with
  | nil => rfl
  | cons s ss ih => simp [asStrings, ih]

lemma get_active_shape (rs : List JValue) (data : JValue) (hshape : shapeWith rs data) :
    get_active_eks_versions data = runReleases (.arr rs) := by
  rcases hshape with rfl | ⟨fs, gs, rfl, hres, hrel⟩
  · rfl
  · have hany : gs.any (fun p => p.1 == "releases") = true := by
      rw [← lookup_isSome_any, hrel]; rfl
    simp [get_active_eks_versions, hres, pyIn, hany, pySubscript, hrel]

lemma prefixOf_iff (u s : List Char) : u.isPrefixOf s = true ↔ ∃ t, s = u ++ t := by
  induction u generalizing s with
  | nil => simp [List.isPrefixOf]
  | cons c cs ih =>
    cases s with
    | nil => simp [List.isPrefixOf]
    | cons d ds =>
      simp only [List.isPrefixOf, Bool.and_eq_true, beq_iff_eq, ih]
      constructor
      · rintro ⟨rfl, t, rfl⟩; exact ⟨t, rfl⟩
      · rintro ⟨t, ht⟩
        injection ht with h1 h2
        exact ⟨h1.symm, t, h2⟩

lemma drop_append_left (n : Nat) (u v : List Char) (h : n ≤ u.length) :
    (u ++ v).drop n = u.drop n ++ v := by
  induction u generalizing n with
  | nil => simp at h; simp [h]
  | cons c cs ih =>
    cases n with
    | zero => simp
    | succ m =>
      simp only [List.cons_append, List.drop_succ_cons]
      exact ih m (Nat.le_of_succ_le_succ h)

lemma takeWhile_all_stop (p : Char → Bool) (xs ys : List Char)
    (h1 : ∀ c ∈ xs, p c = true) (h2 : ∀ c, ys.head? = some c → p c = false) :
    (xs ++ ys).takeWhile p = xs ∧ (xs ++ ys).dropWhile p = ys := by
  induction xs with
  | nil =>
    cases ys with
    | nil => simp
    | cons y ys => simp [List.takeWhile, List.dropWhile, h2 y rfl]
  | cons x xs ih =>
    have hx := h1 x (List.mem_cons_self x xs)
    have hxs := ih (fun c hc => h1 c (List.mem_cons_of_mem x hc))
    simp [List.takeWhile, List.dropWhile, hx, hxs.1, hxs.2]

lemma dropWhile_head (p : Char → Bool) (l : List Char) :
    l.dropWhile p = [] ∨ ∃ c t, l.dropWhile p = c :: t ∧ p c = false := by
  induction l with
  | nil => left; rfl
  | cons c cs ih =>
    cases hc : p c with
    | true => simpa [List.dropWhile, hc] using ih
    | false => right; exact ⟨c, cs, by simp [List.dropWhile, hc], hc⟩

lemma takeWhile_mem_true (p : Char → Bool) (l : List Char) :
    ∀ c ∈ l.takeWhile p, p c = true := by
  intro c hc
  exact List.mem_takeWhile_imp hc

lemma scanInner_sound :
    ∀ t i r, scanInner t = some (i, r) →
      t = i ++ ']' :: r ∧ ']' ∉ i ∧ '\n' ∉ i := by
  intro t
  induction t with
  | nil => intro i r h; simp [scanInner] at h
  | cons c cs ih =>
    intro i r h
    by_cases hc : c = ']'
    · subst hc
      simp [scanInner] at h
      obtain ⟨rfl, rfl⟩ := h
      simp
    · by_cases hn : c = '\n'
      · subst hn; simp [scanInner, hc] at h
      · simp only [scanInner, if_neg hc, if_neg hn] at h
        cases hrec : scanInner cs with
        | none => rw [hrec] at h; exact absurd h (by simp)
        | some ir =>
          obtain ⟨i2, r2⟩ := ir
          rw [hrec] at h
          simp at h
          obtain ⟨rfl, rfl⟩ := h
          obtain ⟨ht, h1, h2⟩ := ih i2 r2 hrec
          refine ⟨by simp [ht], ?_, ?_⟩
          · simp [h1, Ne.symm, hc]
          · simp [h2, Ne.symm, hn]

lemma scanInner_complete (i r : List Char) (h1 : ']' ∉ i) (h2 : '\n' ∉ i) :
    scanInner (i ++ ']' :: r) = some (i, r) := by
  induction i with
  | nil => simp [scanInner]
  | cons c cs ih =>
    have hc : ¬c = ']' := by intro hc; exact h1 (hc ▸ List.mem_cons_self c cs)
    have hn : ¬c = '\n' := by intro hn; exact h2 (hn ▸ List.mem_cons_self c cs)
    have ih2 := ih (fun h => h1 (List.mem_cons_of_mem c h))
      (fun h => h2 (List.mem_cons_of_mem c h))
    simp [scanInner, hc, hn, ih2]

lemma cPat_length : cPat.length = 10 := rfl

lemma headContains_some (s i r : List Char) :
    headContains s = some (i, r) ↔
      s = cPat ++ i ++ ']' :: r ∧ ']' ∉ i ∧ '\n' ∉ i := by
  constructor
  · intro h
    unfold headContains at h
    cases hpre : cPat.isPrefixOf s with
    | false => rw [hpre] at h; simp at h
    | true =>
      rw [hpre] at h
      simp only [if_true] at h
      obtain ⟨t, rfl⟩ := (prefixOf_iff _ _).mp hpre
      rw [← cPat_length, List.drop_left] at h
      obtain ⟨ht, h1, h2⟩ := scanInner_sound t i r h
      exact ⟨by rw [ht, List.append_assoc], h1, h2⟩
  · rintro ⟨rfl, h1, h2⟩
    have hpre : cPat.isPrefixOf (cPat ++ i ++ ']' :: r) = true :=
      (prefixOf_iff _ _).mpr ⟨i ++ ']' :: r, by rw [List.append_assoc]⟩
    unfold headContains
    rw [hpre]
    simp only [if_true, List.append_assoc, ← cPat_length, List.drop_left]
    exact scanInner_complete i r h1 h2

lemma matchAtB_iff (s : List Char) :
    matchAtB s = true ↔ ∃ i r, s = cPat ++ i ++ ']' :: r ∧ ']' ∉ i ∧ '\n' ∉ i := by
  unfold matchAtB
  rw [Option.isSome_iff_exists]
  constructor
  · rintro ⟨⟨i, r⟩, h⟩
    exact ⟨i, r, (headContains_some s i r).mp h⟩
  · rintro ⟨i, r, h⟩
    exact ⟨(i, r), (headContains_some s i r).mpr h⟩

lemma findContainsMatch_sound :
    ∀ s A I B, findContainsMatch s = some (A, I, B) →
      s = A ++ cPat ++ I ++ ']' :: B ∧ ']' ∉ I ∧ '\n' ∉ I ∧
        ∀ q < A.length, matchAtB (s.drop q) = false := by
  intro s
  induction s with
  | nil => intro A I B h; simp [findContainsMatch] at h
  | cons c cs ih =>
    intro A I B h
    simp only [findContainsMatch] at h
    cases hhead : headContains (c :: cs) with
    | some ir =>
      obtain ⟨i, r⟩ := ir
      rw [hhead] at h
      simp at h
      obtain ⟨rfl, rfl, rfl⟩ := h
      obtain ⟨hdec, h1, h2⟩ := (headContains_some _ _ _).mp hhead
      exact ⟨by simpa using hdec, h1, h2, by intro q hq; simp at hq⟩
    | none =>
      rw [hhead] at h
      cases hrec : findContainsMatch cs with
      | none => rw [hrec] at h; simp at h
      | some pir =>
        obtain ⟨p, i, r⟩ := pir
        rw [hrec] at h
        simp at h
        obtain ⟨rfl, rfl, rfl⟩ := h
        obtain ⟨hdec, h1, h2, hleft⟩ := ih p i r hrec
        refine ⟨by simp [hdec], h1, h2, ?_⟩
        intro q hq
        cases q with
        | zero =>
          simp only [List.drop_zero]
          unfold matchAtB
          rw [hhead]
          rfl
        | succ m =>
          simp only [List.drop_succ_cons]
          exact hleft m (by simpa using hq)

lemma findContainsMatch_cons (c : Char) (cs : List Char) :
    findContainsMatch (c :: cs) =
      match headContains (c :: cs) with
      | some (i, r) => some ([], i, r)
      | none =>
        match findContainsMatch cs with
        | some (p, i, r) => some (c :: p, i, r)
        | none => none := rfl

lemma cPat_cons : cPat = 'c' :: "ontains([".data := rfl

lemma findContainsMatch_complete :
    ∀ A s I B, s = A ++ cPat ++ I ++ ']' :: B → ']' ∉ I → '\n' ∉ I →
      (∀ q < A.length, matchAtB (s.drop q) = false) →
      findContainsMatch s = some (A, I, B) := by
  intro A
  induction A with
  | nil =>
    intro s I B hdec h1 h2 _
    subst hdec
    have hh : headContains ([] ++ cPat ++ I ++ ']' :: B) = some (I, B) :=
      (headContains_some _ _ _).mpr ⟨by simp, h1, h2⟩
    simp only [List.nil_append] at hh ⊢
    rw [cPat_cons] at hh ⊢
    simp only [List.cons_append] at hh ⊢
    rw [findContainsMatch_cons, hh]
  | cons a A ih =>
    intro s I B hdec h1 h2 hleft
    subst hdec
    have hh : headContains ((a :: A) ++ cPat ++ I ++ ']' :: B) = none := by
      have h0 := hleft 0 (by simp)
      simp only [List.drop_zero] at h0
      unfold matchAtB at h0
      cases hx : headContains ((a :: A) ++ cPat ++ I ++ ']' :: B) with
      | none => rfl
      | some v => rw [hx] at h0; simp at h0
    have hrec : findContainsMatch (A ++ cPat ++ I ++ ']' :: B) = some (A, I, B) := by
      refine ih _ I B rfl h1 h2 ?_
      intro q hq
      have h1q := hleft (q + 1) (by simpa using Nat.succ_lt_succ hq)
      simpa using h1q
    simp only [List.cons_append] at hh ⊢
    rw [findContainsMatch_cons, hh, hrec]

lemma ePat_length : ePat.length = 13 := rfl

lemma ePat_cons : ePat = 'e' :: "rror_message".data := rfl

lemma pySpace_eq_false : pySpace '=' = false := by decide

lemma matchErrorHere_some (s g v r : List Char) :
    matchErrorHere s = some (g, v, r) ↔
      ∃ ws1 ws2 tail,
        s = ePat ++ ws1 ++ '=' :: ws2 ++ tail ∧ g = ePat ++ ws1 ++ '=' :: ws2 ∧
        (∀ c ∈ ws1, pySpace c = true) ∧ (∀ c ∈ ws2, pySpace c = true) ∧
        (∀ c, tail.head? = some c → pySpace c = false) ∧
        v = tail.takeWhile (fun c => c != '\n') ∧
        r = tail.dropWhile (fun c => c != '\n') := by
  constructor
  · intro h
    unfold matchErrorHere at h
    cases hpre : ePat.isPrefixOf s with
    | false => rw [hpre] at h; simp at h
    | true =>
      rw [hpre] at h
      simp only [if_true] at h
      obtain ⟨t, rfl⟩ := (prefixOf_iff _ _).mp hpre
      rw [← ePat_length, List.drop_left] at h
      cases hdw : t.dropWhile pySpace with
      | nil => rw [hdw] at h; simp at h
      | cons d t2 =>
        rw [hdw] at h
        by_cases hd : d = '='
        · subst hd
          simp only [Option.some.injEq, Prod.mk.injEq] at h
          obtain ⟨hg, hv, hr⟩ := h
          refine ⟨t.takeWhile pySpace, t2.takeWhile pySpace, t2.dropWhile pySpace,
            ?_, ?_, takeWhile_mem_true _ _, takeWhile_mem_true _ _, ?_, ?_, ?_⟩
          · have ht : t.takeWhile pySpace ++ '=' :: t2 = t := by
              rw [← hdw]; exact List.takeWhile_append_dropWhile _ _
            have ht2 : t2.takeWhile pySpace ++ t2.dropWhile pySpace = t2 :=
              List.takeWhile_append_dropWhile _ _
            simp only [List.append_assoc, List.cons_append]
            rw [ht2, ht]
          · exact hg.symm
          · intro c hc
            rcases dropWhile_head pySpace t2 with hnil | ⟨c2, t3, heq, hp⟩
            · rw [hnil] at hc; exact absurd hc (by simp)
            · rw [heq] at hc
              simp only [List.head?, Option.some.injEq] at hc
              rw [hc] at hp
              exact hp
          · exact hv.symm
          · exact hr.symm
        · exfalso
          have hnone : (match d :: t2 with
              | '=' :: t2 =>
                some (ePat ++ t.takeWhile pySpace ++ '=' :: t2.takeWhile pySpace,
                      (t2.dropWhile pySpace).takeWhile (fun c => c != '\n'),
                      (t2.dropWhile pySpace).dropWhile (fun c => c != '\n'))
              | _ => none) = none := by
            split
            · rename_i x y heq
              injection heq with h1 h2
              exact absurd h1 hd
            · rfl
          rw [hnone] at h
          simp at h
  · rintro ⟨ws1, ws2, tail, hdec, hg, hw1, hw2, hhead, hv, hr⟩
    have hpre : ePat.isPrefixOf s = true := by
      refine (prefixOf_iff _ _).mpr ⟨ws1 ++ '=' :: ws2 ++ tail, ?_⟩
      rw [hdec]; simp [List.append_assoc]
    have hdrop : s.drop 13 = ws1 ++ '=' :: (ws2 ++ tail) := by
      rw [hdec, ← ePat_length]
      have : ePat ++ ws1 ++ '=' :: ws2 ++ tail = ePat ++ (ws1 ++ '=' :: (ws2 ++ tail)) := by
        simp [List.append_assoc]
      rw [this, List.drop_left]
    have hsplit1 := takeWhile_all_stop pySpace ws1 ('=' :: (ws2 ++ tail)) hw1
      (by
        intro c hc
        simp only [List.head?, Option.some.injEq] at hc
        exact hc ▸ pySpace_eq_false)
    have hsplit2 := takeWhile_all_stop pySpace ws2 tail hw2 hhead
    unfold matchErrorHere
    rw [hpre]
    simp only [if_true, hdrop, hsplit1.1, hsplit1.2, hsplit2.1, hsplit2.2]
    rw [hg, hv, hr]

lemma matchErrorHere_decomp (s g v r : List Char) (h : matchErrorHere s = some (g, v, r)) :
    s = g ++ v ++ r := by
  obtain ⟨ws1, ws2, tail, hdec, hg, _, _, _, hv, hr⟩ := (matchErrorHere_some s g v r).mp h
  have htail : v ++ r = tail := by rw [hv, hr]; exact List.takeWhile_append_dropWhile _ _
  rw [hdec, hg, ← htail]
  simp [List.append_assoc]

lemma findErrorMatch_cons (c : Char) (cs : List Char) :
    findErrorMatch (c :: cs) =
      match matchErrorHere (c :: cs) with
      | some (g, v, r) => some ([], g, v, r)
      | none =>
        match findErrorMatch cs with
        | some (p, g, v, r) => some (c :: p, g, v, r)
        | none => none := rfl

lemma findErrorMatch_sound :
    ∀ s P g v r, findErrorMatch s = some (P, g, v, r) →
      s = P ++ (g ++ v ++ r) ∧ matchErrorHere (g ++ v ++ r) = some (g, v, r) ∧
        ∀ q < P.length, errMatchAtB (s.drop q) = false := by
  intro s
  induction s with
  | nil => intro P g v r h; simp [findErrorMatch] at h
  | cons c cs ih =>
    intro P g v r h
    rw [findErrorMatch_cons] at h
    cases hhead : matchErrorHere (c :: cs) with
    | some gvr =>
      obtain ⟨g2, v2, r2⟩ := gvr
      rw [hhead] at h
      simp only [Option.some.injEq, Prod.mk.injEq] at h
      obtain ⟨hP, hg, hv, hr⟩ := h
      subst hP; subst hg; subst hv; subst hr
      have hdec := matchErrorHere_decomp _ _ _ _ hhead
      refine ⟨by simpa using hdec, by rw [← hdec]; exact hhead, ?_⟩
      intro q hq; simp at hq
    | none =>
      rw [hhead] at h
      cases hrec : findErrorMatch cs with
      | none => rw [hrec] at h; simp at h
      | some pgvr =>
        obtain ⟨p, g2, v2, r2⟩ := pgvr
        rw [hrec] at h
        simp only [Option.some.injEq, Prod.mk.injEq] at h
        obtain ⟨hP, hg, hv, hr⟩ := h
        subst hP; subst hg; subst hv; subst hr
        obtain ⟨hdec, hm, hleft⟩ := ih p g2 v2 r2 hrec
        refine ⟨by simp [hdec], hm, ?_⟩
        intro q hq
        cases q with
        | zero =>
          simp only [List.drop_zero]
          unfold errMatchAtB
          rw [hhead]
          rfl
        | succ m =>
          simp only [List.drop_succ_cons]
          exact hleft m (by simpa using hq)

lemma findErrorMatch_complete :
    ∀ P s tail g v r, s = P ++ tail → matchErrorHere tail = some (g, v, r) →
      (∀ q < P.length, errMatchAtB (s.drop q) = false) →
      findErrorMatch s = some (P, g, v, r) := by
  intro P
  induction P with
  | nil =>
    intro s tail g v r hdec hm _
    subst hdec
    obtain ⟨ws1, ws2, t2, hdec2, _, _, _, _, _, _⟩ := (matchErrorHere_some _ _ _ _).mp hm
    subst hdec2
    rw [ePat_cons] at hm ⊢
    simp only [List.cons_append] at hm ⊢
    rw [findErrorMatch_cons, hm]
  | cons a P ih =>
    intro s tail g v r hdec hm hleft
    subst hdec
    have hh : matchErrorHere ((a :: P) ++ tail) = none := by
      have h0 := hleft 0 (by simp)
      simp only [List.drop_zero] at h0
      unfold errMatchAtB at h0
      cases hx : matchErrorHere ((a :: P) ++ tail) with
      | none => rfl
      | some w => rw [hx] at h0; simp at h0
    have hrec : findErrorMatch (P ++ tail) = some (P, g, v, r) := by
      refine ih _ tail g v r rfl hm ?_
      intro q hq
      have h1q := hleft (q + 1) (by simpa using Nat.succ_lt_succ hq)
      simpa using h1q
    simp only [List.cons_append] at hh ⊢
    rw [findErrorMatch_cons, hh, hrec]

lemma findErrorMatch_none (s : List Char)
    (h : ∀ q < s.length, errMatchAtB (s.drop q) = false) :
    findErrorMatch s = none := by
  induction s with
  | nil => rfl
  | cons c cs ih =>
    have h0 := h 0 (by simp)
    simp only [List.drop_zero] at h0
    unfold errMatchAtB at h0
    have hh : matchErrorHere (c :: cs) = none := by
      cases hx : matchErrorHere (c :: cs) with
      | none => rfl
      | some w => rw [hx] at h0; simp at h0
    have hrec : findErrorMatch cs = none := by
      refine ih ?_
      intro q hq
      have h1q := h (q + 1) (by simpa using Nat.succ_lt_succ hq)
      simpa using h1q
    rw [findErrorMatch_cons, hh, hrec]

lemma findContainsMatch_hasClaim :
    ∀ s A I B, findContainsMatch s = some (A, I, B) →
      hasClaimContainsPattern s = true := by
  intro s
  induction s with
  | nil => intro A I B h; simp [findContainsMatch] at h
  | cons c cs ih =>
    intro A I B h
    rw [findContainsMatch_cons] at h
    cases hhead : headContains (c :: cs) with
    | some ir =>
      obtain ⟨i, r⟩ := ir
      obtain ⟨hdec, _, _⟩ := (headContains_some _ _ _).mp hhead
      unfold hasClaimContainsPattern
      have hpre : cPat.isPrefixOf (c :: cs) = true :=
        (prefixOf_iff _ _).mpr ⟨i ++ ']' :: r, by rw [hdec]; simp [List.append_assoc]⟩
      have hcontains : ((c :: cs).drop 10).contains ']' = true := by
        rw [hdec]
        have hd : (cPat ++ i ++ ']' :: r).drop 10 = i ++ ']' :: r := by
          rw [List.append_assoc, ← cPat_length, List.drop_left]
        rw [hd]
        simp [List.contains_eq_any_beq]
      rw [hpre, hcontains]
      rfl
    | none =>
      rw [hhead] at h
      cases hrec : findContainsMatch cs with
      | none => rw [hrec] at h; simp at h
      | some pir =>
        obtain ⟨p, i, r⟩ := pir
        unfold hasClaimContainsPattern
        rw [ih p i r hrec]
        simp

lemma prefixOf_append_left (u w x : List Char) (h : u.length ≤ w.length)
    (hp : u.isPrefixOf (w ++ x) = true) : ∃ t, w = u ++ t := by
  obtain ⟨t, ht⟩ := (prefixOf_iff _ _).mp hp
  rcases (List.append_eq_append_iff.mp ht.symm) with ⟨w2, hw2, _⟩ | ⟨w2, hw2, _⟩
  · exact ⟨w2, hw2⟩
  · have hlen : w.length + w2.length = u.length := by
      have := congrArg List.length hw2
      simpa using this.symm
    have : w2.length = 0 := by omega
    have hw2nil : w2 = [] := List.length_eq_zero.mp this
    exact ⟨[], by rw [hw2, hw2nil]; simp⟩

lemma scanInner_transfer (Z X Y T T2 : List Char)
    (hX1 : ']' ∉ X) (hX2 : '\n' ∉ X) (hY1 : ']' ∉ Y)
    (h : (scanInner (Z ++ (Y ++ ']' :: T2))).isSome = true) :
    (scanInner (Z ++ (X ++ ']' :: T))).isSome = true := by
  rw [Option.isSome_iff_exists] at h
  obtain ⟨⟨i, r⟩, hir⟩ := h
  obtain ⟨hdec, hi1, hi2⟩ := scanInner_sound _ i r hir
  rcases List.append_eq_append_iff.mp hdec with ⟨w, hw, hrest⟩ | ⟨w, hw, hrest⟩
  · -- hw : i = Z ++ w, hrest : Y ++ ']' :: T2 = w ++ ']' :: r
    have hZ1 : ']' ∉ Z := fun hc => hi1 (hw ▸ List.mem_append_left w hc)
    have hZ2 : '\n' ∉ Z := fun hc => hi2 (hw ▸ List.mem_append_left w hc)
    have hw1 : ']' ∉ w := fun hc => hi1 (hw ▸ List.mem_append_right Z hc)
    have hwY : w = Y := by
      rcases List.append_eq_append_iff.mp hrest with ⟨u, hu, hru⟩ | ⟨u, hu, hru⟩
      · -- hu : w = Y ++ u, hru : ']' :: T2 = u ++ ']' :: r
        cases u with
        | nil => simpa using hu
        | cons c cs =>
          exfalso
          have hc : c = ']' := by injection hru with h1 _; exact h1.symm
          exact hw1 (hu ▸ List.mem_append_right Y (hc ▸ List.mem_cons_self c cs))
      · -- hu : Y = w ++ u, hru : ']' :: r = u ++ ']' :: T2
        cases u with
        | nil => simpa using hu.symm
        | cons c cs =>
          exfalso
          have hc : c = ']' := by injection hru with h1 _; exact h1.symm
          exact hY1 (hu ▸ List.mem_append_right w (hc ▸ List.mem_cons_self c cs))
    rw [Option.isSome_iff_exists]
    refine ⟨(Z ++ X, T), ?_⟩
    have hfin : Z ++ (X ++ ']' :: T) = (Z ++ X) ++ ']' :: T := by simp [List.append_assoc]
    rw [hfin]
    exact scanInner_complete (Z ++ X) T
      (by intro hc; rcases List.mem_append.mp hc with hc | hc; exacts [hZ1 hc, hX1 hc])
      (by intro hc; rcases List.mem_append.mp hc with hc | hc; exacts [hZ2 hc, hX2 hc])
  · -- hw : Z = i ++ w, hrest : ']' :: r = w ++ (Y ++ ']' :: T2)
    cases w with
    | nil =>
      simp only [List.append_nil] at hw
      subst hw
      rw [Option.isSome_iff_exists]
      refine ⟨(Z ++ X, T), ?_⟩
      have hfin : Z ++ (X ++ ']' :: T) = (Z ++ X) ++ ']' :: T := by simp [List.append_assoc]
      rw [hfin]
      exact scanInner_complete (Z ++ X) T
        (by intro hc; rcases List.mem_append.mp hc with hc | hc; exacts [hi1 hc, hX1 hc])
        (by intro hc; rcases List.mem_append.mp hc with hc | hc; exacts [hi2 hc, hX2 hc])
    | cons c cs =>
      have hc : c = ']' := by
        simp only [List.cons_append] at hrest
        injection hrest with h1 _
        exact h1.symm
      subst hc
      rw [Option.isSome_iff_exists]
      refine ⟨(i, cs ++ (X ++ ']' :: T)), ?_⟩
      have hfin : Z ++ (X ++ ']' :: T) = i ++ ']' :: (cs ++ (X ++ ']' :: T)) := by
        rw [hw]; simp [List.append_assoc]
      rw [hfin]
      exact scanInner_complete i _ hi1 hi2

lemma matchAtB_transfer (A X Y T T2 : List Char) (q : Nat) (hq : q < A.length)
    (hX1 : ']' ∉ X) (hX2 : '\n' ∉ X) (hY1 : ']' ∉ Y)
    (h : matchAtB ((A ++ cPat ++ Y ++ ']' :: T2).drop q) = true) :
    matchAtB ((A ++ cPat ++ X ++ ']' :: T).drop q) = true := by
  have hqle : q ≤ (A ++ cPat).length := by simp; omega
  have hd2 : (A ++ cPat ++ Y ++ ']' :: T2).drop q = (A ++ cPat).drop q ++ (Y ++ ']' :: T2) := by
    have hassoc : A ++ cPat ++ Y ++ ']' :: T2 = (A ++ cPat) ++ (Y ++ ']' :: T2) := by
      simp [List.append_assoc]
    rw [hassoc, drop_append_left q (A ++ cPat) _ hqle]
  have hd1 : (A ++ cPat ++ X ++ ']' :: T).drop q = (A ++ cPat).drop q ++ (X ++ ']' :: T) := by
    have hassoc : A ++ cPat ++ X ++ ']' :: T = (A ++ cPat) ++ (X ++ ']' :: T) := by
      simp [List.append_assoc]
    rw [hassoc, drop_append_left q (A ++ cPat) _ hqle]
  set W := (A ++ cPat).drop q with hW
  have hWlen : 10 ≤ W.length := by
    rw [hW]
    simp [cPat_length]
    omega
  rw [hd2] at h
  rw [hd1]
  unfold matchAtB headContains at h ⊢
  cases hpre : cPat.isPrefixOf (W ++ (Y ++ ']' :: T2)) with
  | false => rw [hpre] at h; simp at h
  | true =>
    rw [hpre] at h
    simp only [if_true] at h
    obtain ⟨t, ht⟩ := prefixOf_append_left cPat W _ (by rw [cPat_length]; exact hWlen) hpre
    have hpre1 : cPat.isPrefixOf (W ++ (X ++ ']' :: T)) = true :=
      (prefixOf_iff _ _).mpr ⟨t ++ (X ++ ']' :: T), by rw [ht]; simp [List.append_assoc]⟩
    rw [hpre1]
    simp only [if_true]
    have hdropW : ∀ x : List Char, (W ++ x).drop 10 = W.drop 10 ++ x := fun x =>
      drop_append_left 10 W x hWlen
    rw [hdropW] at h
    rw [hdropW]
    exact scanInner_transfer (W.drop 10) X Y T T2 hX1 hX2 hY1 h

lemma errMatchAtB_iff (s : List Char) :
    errMatchAtB s = true ↔
      ∃ ws rest, s = ePat ++ ws ++ '=' :: rest ∧ ∀ c ∈ ws, pySpace c = true := by
  constructor
  · intro h
    unfold errMatchAtB at h
    rw [Option.isSome_iff_exists] at h
    obtain ⟨⟨g, v, r⟩, hm⟩ := h
    obtain ⟨ws1, ws2, tail, hdec, _, hw1, _, _, _, _⟩ := (matchErrorHere_some _ _ _ _).mp hm
    exact ⟨ws1, ws2 ++ tail, by rw [hdec]; simp [List.append_assoc], hw1⟩
  · rintro ⟨ws, rest, hdec, hws⟩
    unfold errMatchAtB
    rw [Option.isSome_iff_exists]
    refine ⟨(ePat ++ ws ++ '=' :: rest.takeWhile pySpace,
      (rest.dropWhile pySpace).takeWhile (fun c => c != '\n'),
      (rest.dropWhile pySpace).dropWhile (fun c => c != '\n')), ?_⟩
    refine (matchErrorHere_some _ _ _ _).mpr
      ⟨ws, rest.takeWhile pySpace, rest.dropWhile pySpace, ?_, rfl,
        hws, takeWhile_mem_true _ _, ?_, rfl, rfl⟩
    · rw [hdec]
      have : rest.takeWhile pySpace ++ rest.dropWhile pySpace = rest :=
        List.takeWhile_append_dropWhile _ _
      rw [← this]
      simp [List.append_assoc]
    · intro c hc
      rcases dropWhile_head pySpace rest with hnil | ⟨c2, t3, heq, hp⟩
      · rw [hnil] at hc; exact absurd hc (by simp)
      · rw [heq] at hc
        simp only [List.head?, Option.some.injEq] at hc
        rw [hc] at hp
        exact hp

lemma singleton_append_split (u w : List Char) (x : Char) (h : u ++ w = [x]) :
    (u = [] ∧ w = [x]) ∨ (u = [x] ∧ w = []) := by
  cases u with
  | nil => left; exact ⟨rfl, by simpa using h⟩
  | cons c cs =>
    right
    simp only [List.cons_append, List.cons.injEq] at h
    obtain ⟨rfl, h2⟩ := h
    have : cs = [] ∧ w = [] := by
      constructor
      · cases cs with
        | nil => rfl
        | cons d ds => simp at h2
      · cases cs with
        | nil => simpa using h2
        | cons d ds => simp at h2
    simp [this.1, this.2]

lemma errMatchAtB_transfer (P g X1 X2 : List Char) (q : Nat) (hq : q < P.length)
    (ws1 ws2 : List Char) (hg : g = ePat ++ ws1 ++ '=' :: ws2)
    (h : errMatchAtB ((P ++ g ++ X2).drop q) = true) :
    errMatchAtB ((P ++ g ++ X1).drop q) = true := by
  have hqle : q ≤ (P ++ g).length := by simp; omega
  have hd2 : (P ++ g ++ X2).drop q = (P ++ g).drop q ++ X2 :=
    drop_append_left q (P ++ g) X2 hqle
  have hd1 : (P ++ g ++ X1).drop q = (P ++ g).drop q ++ X1 :=
    drop_append_left q (P ++ g) X1 hqle
  set W := (P ++ g).drop q with hW
  rw [hd2] at h
  rw [hd1]
  rw [errMatchAtB_iff] at h ⊢
  obtain ⟨ws, rest, hdec, hws⟩ := h
  -- show the consumed part ePat ++ ws ++ ['='] is contained in W
  have hsplit : (ePat ++ ws ++ ['=']) ++ rest = W ++ X2 := by
    rw [hdec]; simp [List.append_assoc]
  have hWeq : ∃ Q, W = ePat ++ ws ++ '=' :: Q := by
    rcases List.append_eq_append_iff.mp hsplit with ⟨u, hu, hru⟩ | ⟨u, hu, hru⟩
    · -- W = (ePat ++ ws ++ ['=']) ++ u
      exact ⟨u, by rw [hu]; simp [List.append_assoc]⟩
    · -- ePat ++ ws ++ ['='] = W ++ u and X2 = u ++ rest
      -- count the equals signs: the left side has exactly one, W already has one,
      -- so u has none, forcing u = [] by the final position of the one '='
      have hcount1 : (ePat ++ ws ++ ['=']).count '=' = 1 := by
        rw [List.count_append, List.count_append]
        have h1 : ePat.count '=' = 0 := by decide
        have h2 : ws.count '=' = 0 := by
          rw [List.count_eq_zero]
          intro hc
          have := hws '=' hc
          rw [pySpace_eq_false] at this
          exact absurd this (by simp)
        simp [h1, h2]
      have hWin : '=' ∈ W := by
        rw [hW]
        have hqP : q ≤ P.length := by omega
        rw [drop_append_left q P g hqP]
        exact List.mem_append_right _ (by rw [hg]; simp)
      have hcountW : 1 ≤ W.count '=' := List.count_pos_iff.mpr hWin
      have hcountu : u.count '=' = 0 := by
        have hcc := congrArg (List.count '=') hu
        simp only [List.count_append] at hcc
        simp only [List.count_append] at hcount1
        omega
      have hunil : u = [] := by
        -- ePat ++ ws ++ ['='] = W ++ u with u free of '='
        rcases List.append_eq_append_iff.mp
          (show (ePat ++ ws) ++ ['='] = W ++ u by rw [← hu]) with
          ⟨u2, hu2, hru2⟩ | ⟨u2, hu2, hru2⟩
        · rcases singleton_append_split u2 u '=' hru2.symm with ⟨_, h2⟩ | ⟨_, h2⟩
          · exfalso
            have hmem : '=' ∈ u := by simp [h2]
            rw [← List.count_pos_iff] at hmem
            omega
          · exact h2
        · exfalso
          have hmem : '=' ∈ u := by simp [hru2]
          rw [← List.count_pos_iff] at hmem
          omega
      rw [hunil, List.append_nil] at hu
      exact ⟨[], by rw [← hu]⟩
  obtain ⟨Q, hQ⟩ := hWeq
  exact ⟨ws, Q ++ X1, by rw [hQ]; simp [List.append_assoc], hws⟩

lemma mem_joinSep (sep : String) (l : List String) (c : Char)
    (h : c ∈ (joinSep sep l).data) : (∃ x ∈ l, c ∈ x.data) ∨ c ∈ sep.data := by
  induction l with
  | nil => exact absurd h (by simp [joinSep])
  | cons x xs ih =>
    cases xs with
    | nil => exact Or.inl ⟨x, by simp, by simpa [joinSep] using h⟩
    | cons y ys =>
      rw [show joinSep sep (x :: y :: ys) = x ++ sep ++ joinSep sep (y :: ys) from rfl] at h
      rw [String.data_append, String.data_append] at h
      rcases List.mem_append.mp h with h2 | h2
      · rcases List.mem_append.mp h2 with h3 | h3
        · exact Or.inl ⟨x, by simp, h3⟩
        · exact Or.inr h3
      · rcases ih h2 with ⟨z, hz, hcz⟩ | h3
        · exact Or.inl ⟨z, List.mem_cons_of_mem x hz, hcz⟩
        · exact Or.inr h3

lemma mem_new_list_str (sv : List String) (c : Char)
    (h : c ∈ (new_list_str sv).data) :
    c = '"' ∨ c = ',' ∨ c = ' ' ∨ ∃ v ∈ sv, c ∈ v.data := by
  unfold new_list_str at h
  rcases mem_joinSep _ _ _ h with ⟨x, hx, hcx⟩ | h2
  · obtain ⟨v, hv, rfl⟩ := List.mem_map.mp hx
    rw [String.data_append, String.data_append] at hcx
    rcases List.mem_append.mp hcx with h3 | h3
    · rcases List.mem_append.mp h3 with h4 | h4
      · left; simpa using h4
      · exact Or.inr (Or.inr (Or.inr ⟨v, hv, h4⟩))
    · left; simpa using h3
  · have h3 : c = ',' ∨ c = ' ' := by
      have hsep : (", " : String).data = [',', ' '] := rfl
      rw [hsep] at h2
      simpa using h2
    rcases h3 with h3 | h3
    · right; left; exact h3
    · right; right; left; exact h3

lemma mem_new_error_msg_val (sv : List String) (c : Char)
    (h : c ∈ (new_error_msg_val sv).data) :
    c ∈ "\"The cluster_version must be one of: ".data ∨ c = ',' ∨ c = ' ' ∨
      c = '.' ∨ c = '"' ∨ ∃ v ∈ sv, c ∈ v.data := by
  unfold new_error_msg_val at h
  rw [String.data_append, String.data_append] at h
  rcases List.mem_append.mp h with h2 | h2
  · rcases List.mem_append.mp h2 with h3 | h3
    · exact Or.inl h3
    · rcases mem_joinSep _ _ _ h3 with ⟨z, hz, hcz⟩ | h4
      · exact Or.inr (Or.inr (Or.inr (Or.inr (Or.inr ⟨z, hz, hcz⟩))))
      · have h5 : c = ',' ∨ c = ' ' := by
          have hsep : (", " : String).data = [',', ' '] := rfl
          rw [hsep] at h4
          simpa using h4
        rcases h5 with h5 | h5
        · exact Or.inr (Or.inl h5)
        · exact Or.inr (Or.inr (Or.inl h5))
  · have h3 : c = '.' ∨ c = '"' := by
      have hsuf : (".\"" : String).data = ['.', '"'] := rfl
      rw [hsuf] at h2
      simpa using h2
    rcases h3 with h3 | h3
    · exact Or.inr (Or.inr (Or.inr (Or.inl h3)))
    · exact Or.inr (Or.inr (Or.inr (Or.inr (Or.inl h3))))

lemma mem_sorted_versions (versions : List String) (v : String)
    (h : v ∈ sorted_versions versions) : v ∈ versions := by
  unfold sorted_versions at h
  by_cases hb : allNumericB versions = true
  · rw [if_pos hb] at h; exact (List.mem_insertionSort _).mp h
  · rw [if_neg hb] at h; exact (List.mem_insertionSort _).mp h

lemma new_list_str_no_stop (versions : List String)
    (hv : ∀ v ∈ versions, ']' ∉ v.data ∧ '\n' ∉ v.data) :
    ']' ∉ (new_list_str (sorted_versions versions)).data ∧
      '\n' ∉ (new_list_str (sorted_versions versions)).data := by
  constructor
  · intro hc
    rcases mem_new_list_str _ _ hc with h | h | h | ⟨v, hv2, hcv⟩
    · exact absurd h (by decide)
    · exact absurd h (by decide)
    · exact absurd h (by decide)
    · exact (hv v (mem_sorted_versions _ _ hv2)).1 hcv
  · intro hc
    rcases mem_new_list_str _ _ hc with h | h | h | ⟨v, hv2, hcv⟩
    · exact absurd h (by decide)
    · exact absurd h (by decide)
    · exact absurd h (by decide)
    · exact (hv v (mem_sorted_versions _ _ hv2)).2 hcv

lemma new_error_msg_val_no_newline (versions : List String)
    (hv : ∀ v ∈ versions, ']' ∉ v.data ∧ '\n' ∉ v.data) :
    '\n' ∉ (new_error_msg_val (sorted_versions versions)).data := by
  intro hc
  rcases mem_new_error_msg_val _ _ hc with h | h | h | h | h | ⟨v, hv2, hcv⟩
  · exact absurd h (by decide)
  · exact absurd h (by decide)
  · exact absurd h (by decide)
  · exact absurd h (by decide)
  · exact absurd h (by decide)
  · exact (hv v (mem_sorted_versions _ _ hv2)).2 hcv

lemma new_error_msg_val_head (sv : List String) :
    ∃ M2, (new_error_msg_val sv).data = '"' :: M2 := by
  unfold new_error_msg_val
  rw [String.data_append, String.data_append]
  exact ⟨"The cluster_version must be one of: ".data ++
    (joinSep ", " sv).data ++ ".\"".data,
    by rw [show "\"The cluster_version must be one of: ".data =
      '"' :: "The cluster_version must be one of: ".data from rfl]; simp⟩

lemma data_mk (l : List Char) : (String.mk l).data = l := rfl

lemma allowListStep_eq (content : String) (sv : List String) (A I B : List Char)
    (hfc : findContainsMatch content.data = some (A, I, B)) :
    allowListStep content sv = some (A ++ cPat ++ (new_list_str sv).data ++ ']' :: B) := by
  unfold allowListStep
  rw [hfc]

lemma update_unfold (content : String) (versions : List String) :
    update_terraform_file content versions =
      match allowListStep content (sorted_versions versions) with
      | none => none
      | some nc => some (String.mk (errorStep nc (sorted_versions versions))) := rfl

lemma update_of_allow (content : String) (versions : List String) (nc : List Char)
    (h : allowListStep content (sorted_versions versions) = some nc) :
    update_terraform_file content versions =
      some (String.mk (errorStep nc (sorted_versions versions))) := by
  rw [update_unfold, h]

lemma errorStep_none (nc : List Char) (sv : List String)
    (h : findErrorMatch nc = none) : errorStep nc sv = nc := by
  unfold errorStep
  rw [h]

lemma errorStep_some (nc : List Char) (sv : List String) (P g V R : List Char)
    (h : findErrorMatch nc = some (P, g, V, R)) :
    errorStep nc sv = P ++ g ++ (new_error_msg_val sv).data ++ R := by
  unfold errorStep
  rw [h]

lemma not_newline_bne (c : Char) (h : c ≠ '\n') : (c != '\n') = true := by
  simpa using h

lemma mem_all_bne (M : List Char) (h : '\n' ∉ M) :
    ∀ c ∈ M, (c != '\n') = true := by
  intro c hc
  exact not_newline_bne c (fun he => h (he ▸ hc))

lemma findErrorMatch_none_sound (s : List Char) (h : findErrorMatch s = none) :
    ∀ q, errMatchAtB (s.drop q) = false := by
  induction s with
  | nil => intro q; cases q <;> rfl
  | cons c cs ih =>
    rw [findErrorMatch_cons] at h
    have hh : matchErrorHere (c :: cs) = none := by
      cases hx : matchErrorHere (c :: cs) with
      | none => rfl
      | some w =>
        obtain ⟨g, v, r⟩ := w
        rw [hx] at h
        simp at h
    rw [hh] at h
    have hrec : findErrorMatch cs = none := by
      cases hx : findErrorMatch cs with
      | none => rfl
      | some w =>
        obtain ⟨p, g, v, r⟩ := w
        rw [hx] at h
        simp at h
    intro q
    cases q with
    | zero =>
      simp only [List.drop_zero]
      unfold errMatchAtB
      rw [hh]
      rfl
    | succ m =>
      simp only [List.drop_succ_cons]
      exact ih hrec m

lemma mainRun_of_sysExit (data : JValue) (content : String)
    (h : get_active_eks_versions data = .sysExit) : mainRun data content = .fetchExit := by
  unfold mainRun
  rw [h]

lemma mainRun_of_exc (data : JValue) (content : String) (e : PyExc)
    (h : get_active_eks_versions data = .exc e) : mainRun data content = .fetchExit := by
  unfold mainRun
  rw [h]

lemma runReleases_arr (rs : List JValue) :
    runReleases (.arr rs) =
      match filterActive rs with
      | .ok vs => .ok vs
      | .error e => .exc e := rfl

/-- Claim C1: for every well-formed response of either recognized shape (a
top-level array of release records, or an object with a `result.releases`
array), the fetcher returns exactly the `name` values of the records whose
`isEol` field is present and is exactly the boolean `false`, in the order the
records appear in the source array. -/
theorem claim_C1_theorem (rs : List JValue) (data : JValue)
    (hwf : ∀ r ∈ rs, isRecordWF r = true)
    (hshape : shapeWith rs data) :
    get_active_eks_versions data = .ok ((rs.filter recActive).map recName) := by
  rw [get_active_shape rs data hshape, runReleases_arr, filterActive_wf rs hwf]

/-- Claim C1 witness: a concrete flat-array response with one end-of-life
record filtered out. -/
theorem claim_C1_witness :
    get_active_eks_versions
      (.arr [.obj [("name", .str "1.29"), ("isEol", .bool false)],
             .obj [("name", .str "1.28"), ("isEol", .bool true)],
             .obj [("name", .str "1.30"), ("isEol", .bool false)]]) =
      .ok [.str "1.29", .str "1.30"] := by
  have h := claim_C1_theorem
    [.obj [("name", .str "1.29"), ("isEol", .bool false)],
     .obj [("name", .str "1.28"), ("isEol", .bool true)],
     .obj [("name", .str "1.30"), ("isEol", .bool false)]]
    (.arr [.obj [("name", .str "1.29"), ("isEol", .bool false)],
           .obj [("name", .str "1.28"), ("isEol", .bool true)],
           .obj [("name", .str "1.30"), ("isEol", .bool false)]])
    (by decide) (Or.inl rfl)
  exact h.trans (by rfl)

/-- Claim C8: for any parsed response whose top-level shape is neither a list
nor an object containing `result.releases`, the process terminates with a
non-zero status (either the `sys.exit(1)` of the shape branch or an uncaught
`TypeError` that `main` converts into `sys.exit(1)`) without filtering any
records and without the updater ever running. -/
theorem claim_C8_theorem (data : JValue) (content : String)
    (h : recognizedShape data = false) :
    mainRun data content = .fetchExit := by
  cases data with
  | null => rfl
  | bool b => rfl
  | num n => rfl
  | str s => rfl
  | arr xs => simp [recognizedShape] at h
  | obj fs =>
    cases hres : lookup fs "result" with
    | none =>
      refine mainRun_of_sysExit _ content ?_
      simp [get_active_eks_versions, hres]
    | some r =>
      cases r with
      | obj gs =>
        have hrel : (lookup gs "releases").isSome = false := by
          simp only [recognizedShape] at h
          rw [hres] at h
          simpa using h
        have hany : gs.any (fun p => p.1 == "releases") = false := by
          rw [← lookup_isSome_any]
          exact hrel
        refine mainRun_of_sysExit _ content ?_
        simp [get_active_eks_versions, hres, pyIn, hany]
      | arr xs =>
        cases hany : xs.any (eqStrLit "releases") with
        | true =>
          refine mainRun_of_exc _ content .typeError ?_
          simp [get_active_eks_versions, hres, pyIn, hany, pySubscript]
        | false =>
          refine mainRun_of_sysExit _ content ?_
          simp [get_active_eks_versions, hres, pyIn, hany]
      | str s =>
        cases hinf : listInfix "releases".data s.data with
        | true =>
          refine mainRun_of_exc _ content .typeError ?_
          simp [get_active_eks_versions, hres, pyIn, hinf, pySubscript]
        | false =>
          refine mainRun_of_sysExit _ content ?_
          simp [get_active_eks_versions, hres, pyIn, hinf]
      | null =>
        refine mainRun_of_exc _ content .typeError ?_
        simp [get_active_eks_versions, hres, pyIn]
      | bool b =>
        refine mainRun_of_exc _ content .typeError ?_
        simp [get_active_eks_versions, hres, pyIn]
      | num n =>
        refine mainRun_of_exc _ content .typeError ?_
        simp [get_active_eks_versions, hres, pyIn]

/-- Claim C8 witness: a bare JSON string is neither recognized shape, and the
run exits in the fetch step. -/
theorem claim_C8_witness :
    mainRun (.str "oops") "doc" = .fetchExit :=
  claim_C8_theorem (.str "oops") "doc" (by decide)

/-- Claim C10: a response of a recognized shape all of whose records are
objects, one of which is active (`isEol` exactly `false`) but lacks a `name`
field, makes the fetcher raise `KeyError`; `main` catches it and the process
exits non-zero with the updater never invoked. -/
theorem claim_C10_theorem (rs : List JValue) (data : JValue) (content : String)
    (hobj : ∀ r ∈ rs, isObjRec r = true)
    (hbad : ∃ r ∈ rs, badRecord r = true)
    (hshape : shapeWith rs data) :
    get_active_eks_versions data = .exc (.keyError "name") ∧
      mainRun data content = .fetchExit := by
  have h1 : get_active_eks_versions data = .exc (.keyError "name") := by
    rw [get_active_shape rs data hshape, runReleases_arr, filterActive_keyError rs hobj hbad]
  exact ⟨h1, mainRun_of_exc data content _ h1⟩

/-- Claim C10 witness: one active record with no `name` field, in the nested
shape. -/
theorem claim_C10_witness :
    get_active_eks_versions
      (.obj [("result", .obj [("releases", .arr [.obj [("isEol", .bool false)]])])]) =
      .exc (.keyError "name") ∧
    mainRun (.obj [("result", .obj [("releases", .arr [.obj [("isEol", .bool false)]])])])
      "doc" = .fetchExit :=
  claim_C10_theorem [.obj [("isEol", .bool false)]]
    (.obj [("result", .obj [("releases", .arr [.obj [("isEol", .bool false)]])])])
    "doc" (by decide) (by decide)
    (Or.inr ⟨[("result", .obj [("releases", .arr [.obj [("isEol", .bool false)]])])],
      [("releases", .arr [.obj [("isEol", .bool false)]])], rfl, rfl, rfl⟩)

/-- Claim C6: when the document contains no occurrence of `contains([`
followed by a later `]` (the claim's reading of the pattern, which subsumes
the regex's newline-restricted reading), the updater calls `sys.exit(1)`
before the write, so the process exits non-zero and the file is untouched
(`none` models exactly this exit-without-write path). -/
theorem claim_C6_theorem (content : String) (versions : List String)
    (h : hasClaimContainsPattern content.data = false) :
    update_terraform_file content versions = none := by
  have hfc : findContainsMatch content.data = none := by
    cases hx : findContainsMatch content.data with
    | none => rfl
    | some t =>
      obtain ⟨A, I, B⟩ := t
      exact absurd (findContainsMatch_hasClaim _ A I B hx) (by rw [h]; simp)
  rw [update_unfold]
  unfold allowListStep
  rw [hfc]

/-- Claim C6 witness: a document with no allow-list pattern is left alone and
the updater exits. -/
theorem claim_C6_witness :
    update_terraform_file "variable \"cluster_version\" default = 1.29\n" ["1.29"] = none :=
  claim_C6_theorem "variable \"cluster_version\" default = 1.29\n" ["1.29"] (by decide)

/-- Claim C7 counterexample: the document contains the allow-list pattern and
no assignment to the exact identifier `error_message` (only to
`xerror_message`), yet the boundary-free regex matches inside the longer
identifier and the code applies a second replacement, so the output is not
the allow-list-only result the claim predicts. -/
theorem claim_C7_counterexample :
    hasExactErrorAssign ("contains([x], v)\nxerror_message = old\n" : String).data = false ∧
    update_terraform_file "contains([x], v)\nxerror_message = old\n" ["1.29", "1.30"] =
      some "contains([\"1.29\", \"1.30\"], v)\nxerror_message = \"The cluster_version must be one of: 1.29, 1.30.\"\n" ∧
    ("contains([\"1.29\", \"1.30\"], v)\nxerror_message = \"The cluster_version must be one of: 1.29, 1.30.\"\n" : String) ≠
      "contains([\"1.29\", \"1.30\"], v)\nxerror_message = old\n" :=
  ⟨by decide, by decide, by decide⟩

/-- Claim C7 (amended): when the document contains the allow-list pattern but
the once-mutated text contains no occurrence of the error-message pattern
(the substring `error_message` followed by optional whitespace and `=`), the
updater is non-fatal: it writes the file with only the allow-list replacement
applied (a `some` result models the write followed by a zero exit; the
warning log is outside the model). -/
theorem claim_C7_theorem (content : String) (versions : List String) (A I B : List Char)
    (hfc : findContainsMatch content.data = some (A, I, B))
    (hnoerr : ∀ q < (A ++ cPat ++ (new_list_str (sorted_versions versions)).data
        ++ ']' :: B).length,
      errMatchAtB ((A ++ cPat ++ (new_list_str (sorted_versions versions)).data
        ++ ']' :: B).drop q) = false) :
    update_terraform_file content versions =
      some (String.mk (A ++ cPat ++ (new_list_str (sorted_versions versions)).data
        ++ ']' :: B)) := by
  have h1 := update_of_allow content versions _
    (allowListStep_eq content (sorted_versions versions) A I B hfc)
  rw [errorStep_none _ _ (findErrorMatch_none _ hnoerr)] at h1
  exact h1

/-- Claim C7 witness: allow-list pattern present, no error-message assignment
anywhere; only the list is rewritten. -/
theorem claim_C7_witness :
    update_terraform_file "contains([x], v)\nok" ["1.29"] =
      some (String.mk (([] : List Char) ++ cPat ++ (new_list_str (sorted_versions ["1.29"])).data
        ++ ']' :: ", v)\nok".data)) :=
  claim_C7_theorem "contains([x], v)\nok" ["1.29"] [] "x".data ", v)\nok".data
    (by decide)
    (fun q _ => findErrorMatch_none_sound _ (by decide) q)

/-- Claim C9 (amended), supporting computation: under the amended hypotheses,
one application of the updater fixes the document, and a second application
reproduces it. -/
theorem claim_C9_theorem (content : String) (versions : List String) (A I B : List Char)
    (hne : versions ≠ [])
    (hv : ∀ v ∈ versions, ']' ∉ v.data ∧ '\n' ∉ v.data)
    (hfc : findContainsMatch content.data = some (A, I, B))
    (herr :
      findErrorMatch (A ++ cPat ++ (new_list_str (sorted_versions versions)).data ++ ']' :: B)
        = none ∨
      ∃ P g V R,
        findErrorMatch (A ++ cPat ++ (new_list_str (sorted_versions versions)).data ++ ']' :: B)
          = some (P, g, V, R) ∧
        A.length + 10 + (new_list_str (sorted_versions versions)).data.length + 1 ≤
          P.length + g.length) :
    ∃ out, update_terraform_file content versions = some out ∧
      update_terraform_file out versions = some out := by
  set sv := sorted_versions versions with hsv
  set L := (new_list_str sv).data with hL
  set nc := A ++ cPat ++ L ++ ']' :: B with hnc
  obtain ⟨hcdec, hI1, hI2, hleft⟩ := findContainsMatch_sound _ _ _ _ hfc
  obtain ⟨hL1, hL2⟩ := new_list_str_no_stop versions hv
  have hstep1 : allowListStep content sv = some nc := allowListStep_eq content sv A I B hfc
  -- failed positions before the match transfer from the original document
  have hleft_transfer : ∀ T2 : List Char,
      ∀ q < A.length, matchAtB ((A ++ cPat ++ L ++ ']' :: T2).drop q) = false := by
    intro T2 q hq
    cases hx : matchAtB ((A ++ cPat ++ L ++ ']' :: T2).drop q) with
    | false => rfl
    | true =>
      exfalso
      have := matchAtB_transfer A I L B T2 q hq hI1 hI2 hL1 hx
      rw [← hcdec] at this
      rw [hleft q hq] at this
      exact absurd this (by simp)
  rcases herr with hnone | ⟨P, g, V, R, hsome, hpos⟩
  · -- no error-message match: the once-updated document is nc and is a fixed point
    refine ⟨String.mk nc, ?_, ?_⟩
    · have h1 := update_of_allow content versions nc hstep1
      rw [errorStep_none _ _ hnone] at h1
      exact h1
    · have hfc2 : findContainsMatch (String.mk nc).data = some (A, L, B) := by
        rw [data_mk]
        exact findContainsMatch_complete A nc L B hnc hL1 hL2 (hleft_transfer B)
      have hstep2 : allowListStep (String.mk nc) sv = some nc := by
        rw [allowListStep_eq _ sv A L B hfc2, ← hL, ← hnc]
      have h2 := update_of_allow (String.mk nc) versions nc hstep2
      rw [errorStep_none _ _ hnone] at h2
      exact h2
  · -- an error-message match strictly after the closing bracket
    obtain ⟨hncdec, hm, hleftE⟩ := findErrorMatch_sound _ _ _ _ _ hsome
    obtain ⟨ws1, ws2, tail, htdec, hg, hws1, hws2, hthead, hV, hR⟩ :=
      (matchErrorHere_some _ _ _ _).mp hm
    set M := (new_error_msg_val sv).data with hM
    set C := P ++ g ++ M ++ R with hC
    have hout1 : update_terraform_file content versions = some (String.mk C) := by
      have h1 := update_of_allow content versions nc hstep1
      rw [errorStep_some _ _ _ _ _ _ hsome, ← hM, ← hC] at h1
      exact h1
    -- align the two decompositions of nc
    have halign : ∃ S, P ++ g = (A ++ cPat ++ L ++ [']']) ++ S ∧ B = S ++ (V ++ R) := by
      have hnc2 : (A ++ cPat ++ L ++ [']']) ++ B = (P ++ g) ++ (V ++ R) := by
        rw [← List.append_assoc]
        have h1 : (A ++ cPat ++ L ++ [']']) ++ B = nc := by
          rw [hnc]; simp [List.append_assoc]
        rw [h1, hncdec]
        simp [List.append_assoc]
      rcases List.append_eq_append_iff.mp hnc2 with ⟨w, hw, hrw⟩ | ⟨w, hw, hrw⟩
      · exact ⟨w, hw, hrw⟩
      · have hlw := congrArg List.length hw
        simp only [List.length_append, List.length_cons, List.length_nil, cPat_length] at hlw
        have hwlen : w.length = 0 := by omega
        have hwnil : w = [] := List.length_eq_zero.mp hwlen
        subst hwnil
        simp only [List.append_nil] at hw
        refine ⟨[], by rw [← hw]; simp, ?_⟩
        have h2 : V ++ R = B := by simpa using hrw
        simp [h2]
    obtain ⟨S, hS, hBS⟩ := halign
    have hCdec : C = A ++ cPat ++ L ++ ']' :: (S ++ M ++ R) := by
      rw [hC]
      have h1 : P ++ g ++ M ++ R = (P ++ g) ++ (M ++ R) := by simp [List.append_assoc]
      rw [h1, hS]
      simp [List.append_assoc]
    refine ⟨String.mk C, hout1, ?_⟩
    -- the second run finds the same two regions and rewrites them identically
    have hfc2 : findContainsMatch (String.mk C).data = some (A, L, S ++ M ++ R) := by
      rw [data_mk]
      refine findContainsMatch_complete A C L (S ++ M ++ R) hCdec hL1 hL2 ?_
      intro q hq
      cases hx : matchAtB (C.drop q) with
      | false => rfl
      | true =>
        exfalso
        rw [hCdec] at hx
        have := hleft_transfer B q hq
        have hx2 := matchAtB_transfer A L L B (S ++ M ++ R) q hq hL1 hL2 hL1 hx
        rw [this] at hx2
        exact absurd hx2 (by simp)
    have htailVR : V ++ R = tail := by
      rw [hV, hR]
      exact List.takeWhile_append_dropWhile _ _
    have hMhead : ∃ M2, M = '"' :: M2 := new_error_msg_val_head sv
    have hMnl : '\n' ∉ M := new_error_msg_val_no_newline versions hv
    have hRhead : R = [] ∨ ∃ t, R = '\n' :: t := by
      rcases dropWhile_head (fun c => c != '\n') tail with hnil | ⟨c, t, heq, hp⟩
      · left; rw [hR]; exact hnil
      · right
        have hcn : c = '\n' := by simpa using hp
        exact ⟨t, by rw [hR, heq, hcn]⟩
    have hsplitM := takeWhile_all_stop (fun c => c != '\n') M R (mem_all_bne M hMnl)
      (by
        intro c hc
        rcases hRhead with hnil | ⟨t, ht⟩
        · rw [hnil] at hc; exact absurd hc (by simp)
        · rw [ht] at hc
          simp only [List.head?, Option.some.injEq] at hc
          rw [← hc]
          simp)
    have hm2 : matchErrorHere (g ++ M ++ R) = some (g, M, R) := by
      refine (matchErrorHere_some _ _ _ _).mpr ⟨ws1, ws2, M ++ R, ?_, hg, hws1, hws2, ?_, ?_, ?_⟩
      · rw [hg]; simp [List.append_assoc]
      · intro c hc
        obtain ⟨M2, hM2⟩ := hMhead
        rw [hM2] at hc
        simp only [List.cons_append, List.head?, Option.some.injEq] at hc
        rw [← hc]
        decide
      · exact hsplitM.1.symm
      · exact hsplitM.2.symm
    have hfe2 : findErrorMatch C = some (P, g, M, R) := by
      refine findErrorMatch_complete P C (g ++ M ++ R) g M R (by rw [hC]; simp [List.append_assoc])
        hm2 ?_
      intro q hq
      cases hx : errMatchAtB (C.drop q) with
      | false => rfl
      | true =>
        exfalso
        have hCq : C = P ++ g ++ (M ++ R) := by rw [hC]; simp [List.append_assoc]
        rw [hCq] at hx
        have hx2 := errMatchAtB_transfer P g (V ++ R) (M ++ R) q hq ws1 ws2 hg hx
        have hncq : P ++ g ++ (V ++ R) = nc := by
          rw [hncdec]; simp [List.append_assoc]
        rw [hncq] at hx2
        rw [hleftE q hq] at hx2
        exact absurd hx2 (by simp)
    have hstep2 : allowListStep (String.mk C) sv = some C := by
      rw [allowListStep_eq _ sv A L (S ++ M ++ R) hfc2, ← hL, ← hCdec]
    have h2 := update_of_allow (String.mk C) versions C hstep2
    rw [errorStep_some _ _ _ _ _ _ hfe2, ← hM, ← hC] at h2
    exact h2

/-- Claim C2 counterexample: in `"contains([\n])"` the claim's pattern occurs
(`contains([` followed by a later `]`, the inner span being the newline), so
the claim predicts a replacement; the code's regex `contains\(\[(.*?)\]`
cannot match across the newline and the updater exits without writing. -/
theorem claim_C2_counterexample :
    hasClaimContainsPattern ("contains([\n])" : String).data = true ∧
    update_terraform_file "contains([\n])" ["1.29", "1.30"] = none :=
  ⟨by decide, by decide⟩

/-- Claim C2 (amended): the updater replaces exactly the inner span of the
first position at which `contains([` is followed by a `]` with no intervening
newline (the shortest such newline-free span; positions whose span would
contain a newline do not match), leaving the prefix, the closing bracket and
the rest of the document unchanged; in particular the claim's concrete
example holds. -/
theorem claim_C2_theorem (content : String) (versions : List String) (A I B : List Char)
    (hdec : content.data = A ++ cPat ++ I ++ ']' :: B)
    (hI1 : ']' ∉ I) (hI2 : '\n' ∉ I)
    (hleft : ∀ q < A.length, matchAtB (content.data.drop q) = false) :
    allowListStep content (sorted_versions versions) =
      some (A ++ cPat ++ (new_list_str (sorted_versions versions)).data ++ ']' :: B) ∧
    update_terraform_file
      "x = contains([\"1.27\", \"1.28\"], var.cluster_version)\n" ["1.29", "1.30"] =
      some "x = contains([\"1.29\", \"1.30\"], var.cluster_version)\n" := by
  refine ⟨?_, by decide⟩
  exact allowListStep_eq content _ A I B
    (findContainsMatch_complete A content.data I B hdec hI1 hI2 hleft)

/-- Claim C2 witness: a concrete document whose allow-list region is located
and spliced. -/
theorem claim_C2_witness :
    allowListStep "v = contains([\"1.27\"], x)" (sorted_versions ["1.29", "1.30"]) =
      some ("v = ".data ++ cPat ++
        (new_list_str (sorted_versions ["1.29", "1.30"])).data ++ ']' :: ", x)".data) ∧
    update_terraform_file
      "x = contains([\"1.27\", \"1.28\"], var.cluster_version)\n" ["1.29", "1.30"] =
      some "x = contains([\"1.29\", \"1.30\"], var.cluster_version)\n" :=
  claim_C2_theorem "v = contains([\"1.27\"], x)" ["1.29", "1.30"]
    "v = ".data "\"1.27\"".data ", x)".data
    (by decide) (by decide) (by decide)
    ((findContainsMatch_sound ("v = contains([\"1.27\"], x)" : String).data
      "v = ".data "\"1.27\"".data ", x)".data (by decide)).2.2.2)

/-- Claim C3: on every successful update, the document outside the two
identified regions (the allow-list inner span, and the error-message value
span located in the once-mutated text) is byte-for-byte unchanged: the output
is obtained from the input by splicing the rendered list into the inner span
and then, when an error-message match exists, splicing the rendered message
into the value span of the once-mutated text. -/
theorem claim_C3_theorem (content : String) (versions : List String) (out : String)
    (h : update_terraform_file content versions = some out) :
    ∃ A I B, content.data = A ++ cPat ++ I ++ ']' :: B ∧ ']' ∉ I ∧ '\n' ∉ I ∧
      (out.data = A ++ cPat ++ (new_list_str (sorted_versions versions)).data ++ ']' :: B ∨
        ∃ Pre V Post,
          A ++ cPat ++ (new_list_str (sorted_versions versions)).data ++ ']' :: B =
            Pre ++ V ++ Post ∧
          out.data = Pre ++ (new_error_msg_val (sorted_versions versions)).data ++ Post) := by
  cases hfc : findContainsMatch content.data with
  | none =>
    rw [update_unfold] at h
    unfold allowListStep at h
    rw [hfc] at h
    simp at h
  | some t =>
    obtain ⟨A, I, B⟩ := t
    obtain ⟨hdec, h1, h2, _⟩ := findContainsMatch_sound _ _ _ _ hfc
    set sv := sorted_versions versions with hsv
    set nc := A ++ cPat ++ (new_list_str sv).data ++ ']' :: B with hnc
    have hupd := update_of_allow content versions nc (allowListStep_eq content sv A I B hfc)
    rw [h] at hupd
    have hout : out = String.mk (errorStep nc sv) := Option.some.inj hupd
    refine ⟨A, I, B, hdec, h1, h2, ?_⟩
    cases hfe : findErrorMatch nc with
    | none =>
      left
      rw [hout, errorStep_none _ _ hfe, data_mk]
    | some t2 =>
      obtain ⟨P, g, V, R⟩ := t2
      right
      obtain ⟨hncdec, _, _⟩ := findErrorMatch_sound _ _ _ _ _ hfe
      refine ⟨P ++ g, V, R, ?_, ?_⟩
      · rw [← hnc, hncdec]
        simp [List.append_assoc]
      · rw [hout, errorStep_some _ _ _ _ _ _ hfe, data_mk]

/-- Claim C3 witness: a concrete successful update decomposed into its frame. -/
theorem claim_C3_witness :
    ∃ A I B, ("q = contains([z], w)" : String).data = A ++ cPat ++ I ++ ']' :: B ∧
      ']' ∉ I ∧ '\n' ∉ I ∧
      (("q = contains([\"1.29\"], w)" : String).data =
          A ++ cPat ++ (new_list_str (sorted_versions ["1.29"])).data ++ ']' :: B ∨
        ∃ Pre V Post,
          A ++ cPat ++ (new_list_str (sorted_versions ["1.29"])).data ++ ']' :: B =
            Pre ++ V ++ Post ∧
          ("q = contains([\"1.29\"], w)" : String).data =
            Pre ++ (new_error_msg_val (sorted_versions ["1.29"])).data ++ Post) :=
  claim_C3_theorem "q = contains([z], w)" ["1.29"] "q = contains([\"1.29\"], w)" (by decide)

/-- Claim C4: the sort step orders the list by the integer-sequence key
obtained by splitting each identifier on `.` (the given concrete example
sorts numerically), and on any input the result is a permutation of the
input sorted by the numeric key order when every component parses and by the
plain string order otherwise (the fallback's warning is outside the model). -/
theorem claim_C4_theorem (vs : List String) :
    sorted_versions ["1.30", "1.9", "1.29"] = ["1.9", "1.29", "1.30"] ∧
    (sorted_versions vs).Perm vs ∧
    List.Sorted (sortRel vs) (sorted_versions vs) := by
  refine ⟨by decide, ?_, ?_⟩
  · unfold sorted_versions
    by_cases hb : allNumericB vs = true
    · rw [if_pos hb]
      exact List.perm_insertionSort _ _
    · rw [if_neg hb]
      exact List.perm_insertionSort _ _
  · unfold sorted_versions sortRel
    by_cases hb : allNumericB vs = true
    · rw [if_pos hb, if_pos hb]
      exact List.sorted_insertionSort numLe vs
    · rw [if_neg hb, if_neg hb]
      exact List.sorted_insertionSort lexLe vs

/-- Claim C5 counterexample: the document has an assignment to the exact
identifier `error_message` (the `B` line), but the regex has no identifier
boundary and first matches the `error_message` substring inside
`custom_error_message`, so the code rewrites the `A` value and leaves the
exact assignment untouched, while the claim predicts the opposite. -/
theorem claim_C5_counterexample :
    hasExactErrorAssign
      ("contains([x], v)\ncustom_error_message = A\nerror_message = B\n" : String).data
      = true ∧
    update_terraform_file "contains([x], v)\ncustom_error_message = A\nerror_message = B\n"
      ["1.29", "1.30"] =
      some "contains([\"1.29\", \"1.30\"], v)\ncustom_error_message = \"The cluster_version must be one of: 1.29, 1.30.\"\nerror_message = B\n" ∧
    claim_update_exact "contains([x], v)\ncustom_error_message = A\nerror_message = B\n"
      ["1.29", "1.30"] =
      some "contains([\"1.29\", \"1.30\"], v)\ncustom_error_message = A\nerror_message = \"The cluster_version must be one of: 1.29, 1.30.\"\n" ∧
    ("contains([\"1.29\", \"1.30\"], v)\ncustom_error_message = \"The cluster_version must be one of: 1.29, 1.30.\"\nerror_message = B\n" : String) ≠
      "contains([\"1.29\", \"1.30\"], v)\ncustom_error_message = A\nerror_message = \"The cluster_version must be one of: 1.29, 1.30.\"\n" :=
  ⟨by decide, by decide, by decide, by decide⟩

/-- Claim C5 (amended): in the once-mutated text the updater finds the first
occurrence of the substring `error_message` followed by optional whitespace,
`=`, optional whitespace (the occurrence may be the tail of a longer
identifier, and the whitespace may include newlines), captures as the value
the maximal newline-free span after that whitespace, and replaces the value
with the quoted message listing the sorted versions; the claim's concrete
example holds. -/
theorem claim_C5_theorem (content : String) (versions : List String)
    (nc P g V R : List Char)
    (hstep : allowListStep content (sorted_versions versions) = some nc)
    (hfind : findErrorMatch nc = some (P, g, V, R)) :
    update_terraform_file content versions =
      some (String.mk (P ++ g ++ (new_error_msg_val (sorted_versions versions)).data ++ R)) ∧
    (∀ q < P.length, errMatchAtB (nc.drop q) = false) ∧
    (∃ ws1 ws2, g = ePat ++ ws1 ++ '=' :: ws2 ∧
      (∀ c ∈ ws1, pySpace c = true) ∧ (∀ c ∈ ws2, pySpace c = true)) ∧
    '\n' ∉ V ∧
    update_terraform_file
      "c = contains([\"1.27\", \"1.28\"], v)\nerror_message = \"The cluster_version must be one of: 1.27, 1.28.\"\n"
      ["1.29", "1.30"] =
      some "c = contains([\"1.29\", \"1.30\"], v)\nerror_message = \"The cluster_version must be one of: 1.29, 1.30.\"\n" := by
  obtain ⟨hdec, hm, hleftE⟩ := findErrorMatch_sound _ _ _ _ _ hfind
  obtain ⟨ws1, ws2, tail, _, hg, hws1, hws2, _, hV, _⟩ := (matchErrorHere_some _ _ _ _).mp hm
  refine ⟨?_, hleftE, ⟨ws1, ws2, hg, hws1, hws2⟩, ?_, by decide⟩
  · have h1 := update_of_allow content versions nc hstep
    rw [errorStep_some _ _ _ _ _ _ hfind] at h1
    exact h1
  · rw [hV]
    intro hc
    have h2 := List.mem_takeWhile_imp hc
    simp at h2

/-- Claim C5 witness: a concrete document whose error-message value is
located and replaced. -/
theorem claim_C5_witness :
    update_terraform_file "contains([q], w)\nerror_message = old" ["1.29"] =
      some (String.mk ("contains([\"1.29\"], w)\n".data ++ "error_message = ".data ++
        (new_error_msg_val (sorted_versions ["1.29"])).data ++ ([] : List Char))) ∧
    (∀ q < ("contains([\"1.29\"], w)\n" : String).data.length,
      errMatchAtB (("contains([\"1.29\"], w)\nerror_message = old" : String).data.drop q)
        = false) ∧
    (∃ ws1 ws2, ("error_message = " : String).data = ePat ++ ws1 ++ '=' :: ws2 ∧
      (∀ c ∈ ws1, pySpace c = true) ∧ (∀ c ∈ ws2, pySpace c = true)) ∧
    '\n' ∉ ("old" : String).data ∧
    update_terraform_file
      "c = contains([\"1.27\", \"1.28\"], v)\nerror_message = \"The cluster_version must be one of: 1.27, 1.28.\"\n"
      ["1.29", "1.30"] =
      some "c = contains([\"1.29\", \"1.30\"], v)\nerror_message = \"The cluster_version must be one of: 1.29, 1.30.\"\n" :=
  claim_C5_theorem "contains([q], w)\nerror_message = old" ["1.29"]
    ("contains([\"1.29\"], w)\nerror_message = old" : String).data
    "contains([\"1.29\"], w)\n".data "error_message = ".data "old".data []
    (by decide) (by decide)

/-- Claim C9 counterexample: with the version list `["]"]` the update is not
idempotent: the closing bracket inside the inserted version string becomes
the end of the lazy match on the second run, which splices the list again
and changes the document. -/
theorem claim_C9_counterexample :
    update_terraform_file "contains([x], v)" ["]"] = some "contains([\"]\"], v)" ∧
    update_terraform_file "contains([\"]\"], v)" ["]"] = some "contains([\"]\"]\"], v)" ∧
    ("contains([\"]\"]\"], v)" : String) ≠ "contains([\"]\"], v)" :=
  ⟨by decide, by decide, by decide⟩

/-- Claim C9 witness: a concrete document and version list satisfying the
amended side conditions, on which two applications agree with one. -/
theorem claim_C9_witness :
    ∃ out, update_terraform_file "c = contains([\"1.27\"], v)\nerror_message = old"
        ["1.29", "1.30"] = some out ∧
      update_terraform_file out ["1.29", "1.30"] = some out :=
  claim_C9_theorem "c = contains([\"1.27\"], v)\nerror_message = old" ["1.29", "1.30"]
    "c = ".data "\"1.27\"".data ", v)\nerror_message = old".data
    (by decide) (by decide) (by decide)
    (Or.inr ⟨"c = contains([\"1.29\", \"1.30\"], v)\n".data, "error_message = ".data,
      "old".data, [], by decide, by decide⟩)

end VersionRestrictor
